import Mathlib

/-!
# Verification of `simple-interner` (src/interner.rs, src/std_lock_api.rs)

Shallow embedding of the interning store and of the `StdRawRwLock` lock
adapter, with proofs about the claims of the specification.

## Interning store (src/interner.rs)

The store is `Interner<T, S, R> { arena: RwLock<R, HashMap<PinBox<T>, (), S>> }`.
We model the guarded `HashMap<PinBox<T>, (), S>` as a list of entries.  Each
entry records

* `addr` — the address of the pinned heap allocation created by
  `PinBox::new` (`Box::into_raw`); addresses are drawn from a monotone
  allocation counter, so distinct live allocations have distinct addresses
  and an entry's address never changes after creation (the `NonNull<T>`
  pointer of a `PinBox` is fixed at construction; the hash table moves only
  the `PinBox` struct, never the pointee);
* `val` — the pointee value;
* `hash` — the hash under which the entry was inserted into the table
  (`entry` uses the map's `BuildHasher`; `insert_with_hasher` stores the
  caller-supplied raw hash).

Lookups (`get_key_value`, the `entry` probe, `raw_entry().from_hash`) find an
entry when its stored hash matches the probe hash and the key comparison
(value equality for `get`/`intern`, the caller's predicate for the raw API)
succeeds; this is the documented contract of hashbrown's hash-directed
lookups, with full-hash collisions between distinct stored hashes abstracted
away.

The `BuildHasher` family `S` is modelled as a function `T → Nat` carried by
the store.  `Interner` additionally carries instrumentation that exists only
to observe allocation behaviour (the spec's "allocation-counting wrapper
type"): `allocs` counts every `PinBox::new`/`Box` conversion ever performed,
`frees` counts every `PinBox` drop.

Single-threaded runs use `intern`/`intern_raw`.  To reason about the
double-checked pattern under races, `internRacy`/`internRawRacy` take two
states: `s` is the arena observed by the shared-lock probe and `s'` the arena
observed after acquiring the write lock (another thread may have inserted in
between); `intern s t = internRacy s s t`.
-/

section InternerModel

variable {T : Type} [DecidableEq T] {Q : Type}

/-- One entry of the arena: a `PinBox<T>` key of the backing `HashMap`
together with the hash it is stored under. -/
structure Entry (T : Type) where
  addr : Nat
  val : T
  hash : Nat
deriving DecidableEq, Repr

/-- `Interned<'a, T>`: a handle to an interned value; `addr` is the address
of the pinned allocation the contained `&'a T` points to. -/
structure Interned (T : Type) where
  addr : Nat
  val : T
deriving DecidableEq, Repr

/-- The interning store `Interner<T, S, R>`.  `hashFn` models the
`BuildHasher` family `S`; `arena` the guarded `HashMap<PinBox<T>, ()>`;
`nextAddr` the allocator's fresh-address supply; `allocs`/`frees` count heap
(de)allocations of pinned boxes. -/
structure Interner (T : Type) where
  hashFn : T → Nat
  arena : List (Entry T)
  nextAddr : Nat
  allocs : Nat
  frees : Nat

/-- `Interner::new()`: empty arena.  The `RandomState` default hash family is
an arbitrary member of the family, supplied here as `f`. -/
def Interner.new (f : T → Nat) : Interner T :=
  { hashFn := f, arena := [], nextAddr := 0, allocs := 0, frees := 0 }

/-- `Interner::with_capacity(capacity)`: empty arena; the capacity only
pre-sizes the table and has no observable effect on entries. -/
def Interner.with_capacity (f : T → Nat) (capacity : Nat) : Interner T :=
  Interner.new f

/-- `Interner::with_hasher(hasher)`: empty arena with the given hash family. -/
def Interner.with_hasher (f : T → Nat) : Interner T :=
  Interner.new f

/-- `Interner::with_capacity_and_hasher(capacity, hasher)`. -/
def Interner.with_capacity_and_hasher (capacity : Nat) (f : T → Nat) : Interner T :=
  Interner.new f

/-- The probe used by `get`/`intern`: `get_key_value(t)` finds the entry
stored under the map hash of `t` whose key equals `t`. -/
def Interner.probe (s : Interner T) (t : T) : Option (Entry T) :=
  s.arena.find? (fun e => e.hash == s.hashFn t && e.val == t)

/-- `Interner::get`: shared-lock lookup; returns a handle to the stored
pinned allocation if a matching entry exists. -/
def Interner.get (s : Interner T) (t : T) : Option (Interned T) :=
  (s.probe t).map (fun e => ⟨e.addr, e.val⟩)

/-- The slow path of `Interner::intern`, starting from the arena state `s`
observed under the write lock.  Mirrors the source: the caller's value is
converted into a boxed `T` (`PinBox::new(t.into())`, one allocation) BEFORE
the `entry` probe; on `Entry::Occupied` the fresh box is dropped (one free)
and the existing key's address is returned; on `Entry::Vacant` the fresh box
is inserted and its address returned. -/
def Interner.internSlow (s : Interner T) (t : T) : Interned T × Interner T :=
  let boxed : Entry T := ⟨s.nextAddr, t, s.hashFn t⟩
  let s₁ : Interner T :=
    { s with nextAddr := s.nextAddr + 1, allocs := s.allocs + 1 }
  match s₁.probe t with
  | some e => (⟨e.addr, e.val⟩, { s₁ with frees := s₁.frees + 1 })
  | none => (⟨boxed.addr, boxed.val⟩, { s₁ with arena := s₁.arena ++ [boxed] })

/-- `Interner::intern` with the race between the shared-lock probe and the
write-lock acquisition made explicit: `s` is the state seen by the fast-path
`get`, `s'` the state seen after `self.arena.write()`. -/
def Interner.internRacy (s s' : Interner T) (t : T) : Interned T × Interner T :=
  match s.get t with
  | some interned => (interned, s)
  | none => s'.internSlow t

/-- `Interner::intern` in a single-threaded run: no other thread changes the
arena between the probe and the write lock. -/
def Interner.intern (s : Interner T) (t : T) : Interned T × Interner T :=
  s.internRacy s t

/-- The probe used by the raw API: `raw_entry().from_hash(hash, is_match)`
finds the entry stored under `hash` that satisfies the caller's predicate. -/
def Interner.probeRaw (s : Interner T) (hash : Nat) (pred : T → Bool) :
    Option (Entry T) :=
  s.arena.find? (fun e => e.hash == hash && pred e.val)

/-- `Interner::get_raw`: shared-lock lookup by precomputed hash and caller
predicate. -/
def Interner.get_raw (s : Interner T) (hash : Nat) (pred : T → Bool) :
    Option (Interned T) :=
  (s.probeRaw hash pred).map (fun e => ⟨e.addr, e.val⟩)

/-- The slow path of `Interner::intern_raw` from the write-lock state `s`.
Mirrors the source: on `RawEntryMut::Occupied` the existing key is returned
and `commit` is NOT run (the candidate `it` is discarded); on `Vacant`,
`commit it` produces the owned `T`, which is boxed (one allocation) and
inserted under `hash`.  The returned flag records whether `commit` ran. -/
def Interner.internRawSlow (s : Interner T) (it : Q) (hash : Nat)
    (is_match : Q → T → Bool) (commit : Q → T) :
    Interned T × Interner T × Bool :=
  match s.probeRaw hash (fun u => is_match it u) with
  | some e => (⟨e.addr, e.val⟩, s, false)
  | none =>
    let v := commit it
    (⟨s.nextAddr, v⟩,
      { s with
        arena := s.arena ++ [⟨s.nextAddr, v, hash⟩],
        nextAddr := s.nextAddr + 1,
        allocs := s.allocs + 1 },
      true)

/-- `Interner::intern_raw` with the probe/write-lock race made explicit, as
in `internRacy`.  `do_hash` is only used by the table to rehash entries on
growth, which relocates table slots but neither the pinned allocations nor
the stored hashes; it has no observable effect in the model. -/
def Interner.internRawRacy (s s' : Interner T) (it : Q) (hash : Nat)
    (is_match : Q → T → Bool) (do_hash : T → Nat) (commit : Q → T) :
    Interned T × Interner T × Bool :=
  match s.get_raw hash (fun u => is_match it u) with
  | some interned => (interned, s, false)
  | none => s'.internRawSlow it hash is_match commit

/-- `Interner::intern_raw` in a single-threaded run. -/
def Interner.intern_raw (s : Interner T) (it : Q) (hash : Nat)
    (is_match : Q → T → Bool) (do_hash : T → Nat) (commit : Q → T) :
    Interned T × Interner T × Bool :=
  s.internRawRacy s it hash is_match do_hash commit

/-- Sequentially intern a list of values (single-threaded). -/
def Interner.runInterns (s : Interner T) (ws : List T) : Interner T :=
  ws.foldl (fun a w => (a.intern w).2) s

/-- No two entries hold equal values: the deduplication invariant of the
store's set. -/
def valsDistinct : List (Entry T) → Bool
  | [] => true
  | e :: rest => rest.all (fun x => !(x.val == e.val)) && valsDistinct rest

/-- No two entries share an address (each lives in its own allocation). -/
def addrsDistinct : List (Entry T) → Bool
  | [] => true
  | e :: rest => rest.all (fun x => !(x.addr == e.addr)) && addrsDistinct rest

/-- Allocator soundness: every entry's address was produced by the
allocation counter, and no two entries share an address. -/
def Interner.addrOk (s : Interner T) : Bool :=
  s.arena.all (fun e => e.addr < s.nextAddr) && addrsDistinct s.arena

/-- Every entry is stored under the map hash of its own value.  This holds
for everything `intern` inserts; the raw API can deliberately store an entry
under a foreign hash. -/
def Interner.hashCanonical (s : Interner T) : Bool :=
  s.arena.all (fun e => e.hash == s.hashFn e.val)

/-- The deduplication invariant of the store. -/
def Interner.dedup (s : Interner T) : Bool :=
  valsDistinct s.arena

end InternerModel

/-!
## Lock adapter (src/std_lock_api.rs)

`StdRawRwLock` wraps a lazily initialised, pinned `std::sync::RwLock<()>`
plus one `UnsafeCell<Option<RwLockWriteGuard<'static, ()>>>` slot.  We model

* the underlying `std` reader-writer lock as `StdRwLockState`: the number of
  outstanding read holds, whether a write hold is outstanding, and the
  poison flag (set by `std` when a holder panics while holding the lock);
* the adapter as that lock state plus whether the internal slot currently
  stores a write guard.

`std`'s guard semantics embedded here: `read()`/`write()` block while the
lock is unavailable (writer held, resp. any holder) and, once acquired,
return `Err(PoisonError(guard))` if the poison flag is set — the source's
`.expect(...)` then panics and the guard inside the error is dropped during
unwinding.  `try_read()`/`try_write()` return `Err(WouldBlock)` without
acquiring when the lock is unavailable, and otherwise acquire and report
poisoning exactly as the blocking forms do.  Dropping a read (write) guard
decrements the reader count (clears the writer flag).

An operation's outcome is an `AcqResult`: `acquired` (lock taken, for the
try-forms a `true` return), `unavailable` (a try-form returned `false`
without acquiring), `blocked` (a blocking form would have had to wait — the
model stops there rather than modelling the wait), or `panicked` (the
`.expect` on a poisoned lock fired; no state survives a panic).
-/

section LockModel

/-- The state of the underlying `std::sync::RwLock<()>`. -/
structure StdRwLockState where
  readers : Nat
  writer : Bool
  poisoned : Bool
deriving DecidableEq, Repr

/-- The `StdRawRwLock` adapter: the pinned inner lock and the internal
write-guard slot (`write = true` iff the slot holds a stored guard). -/
structure StdRawRwLock where
  lock : StdRwLockState
  write : Bool
deriving DecidableEq, Repr

/-- Outcome of an acquire operation. -/
inductive AcqResult where
  | acquired (a : StdRawRwLock)
  | unavailable (a : StdRawRwLock)
  | blocked
  | panicked
deriving DecidableEq, Repr

/-- `RawRwLock::INIT`: a closed, unlocked, unpoisoned adapter with an empty
slot (the lazily initialised inner lock starts in `RwLock::default()`). -/
def StdRawRwLock.INIT : StdRawRwLock :=
  { lock := { readers := 0, writer := false, poisoned := false }, write := false }

/-- `lock_shared`: `self.lock.read().expect(...)` then `mem::forget(guard)`.
`read()` waits while a writer holds the lock; once acquired, a poisoned lock
makes the `.expect` panic; otherwise the guard is forgotten, so the read
hold persists past the call. -/
def StdRawRwLock.lock_shared (a : StdRawRwLock) : AcqResult :=
  if a.lock.writer then .blocked
  else if a.lock.poisoned then .panicked
  else .acquired { a with lock := { a.lock with readers := a.lock.readers + 1 } }

/-- `try_lock_shared`: `try_read()` reports `WouldBlock` (return `false`)
while a writer holds the lock; on a poisoned acquire the `.expect` panics;
otherwise the guard is forgotten and `true` is returned. -/
def StdRawRwLock.try_lock_shared (a : StdRawRwLock) : AcqResult :=
  if a.lock.writer then .unavailable a
  else if a.lock.poisoned then .panicked
  else .acquired { a with lock := { a.lock with readers := a.lock.readers + 1 } }

/-- `unlock_shared`: `if let Ok(new_guard) = self.lock.try_read()` re-derives
a fresh read guard, `ptr::read` duplicates it, and both copies are dropped —
a net decrement of one read hold.  When `try_read` fails (writer held:
`WouldBlock`; poisoned: the error's guard is acquired and immediately
dropped again) the branch is skipped and the lock state is unchanged.  The
operation never panics.  (`readers - 1` is `Nat` subtraction; the operation
is only ever invoked while a shared hold exists, so `readers ≥ 1` there.) -/
def StdRawRwLock.unlock_shared (a : StdRawRwLock) : StdRawRwLock :=
  if !a.lock.writer && !a.lock.poisoned then
    { a with lock := { a.lock with readers := a.lock.readers - 1 } }
  else a

/-- `lock_exclusive`: `self.lock.write().expect(...)`; `write()` waits while
any holder exists; a poisoned acquire panics; otherwise the guard's lifetime
is erased and it is stored in the slot. -/
def StdRawRwLock.lock_exclusive (a : StdRawRwLock) : AcqResult :=
  if a.lock.readers != 0 || a.lock.writer then .blocked
  else if a.lock.poisoned then .panicked
  else .acquired { lock := { a.lock with writer := true }, write := true }

/-- `try_lock_exclusive`: `try_write()` reports `WouldBlock` (return
`false`) while any holder exists; a poisoned acquire panics; otherwise the
guard is stored in the slot and `true` is returned. -/
def StdRawRwLock.try_lock_exclusive (a : StdRawRwLock) : AcqResult :=
  if a.lock.readers != 0 || a.lock.writer then .unavailable a
  else if a.lock.poisoned then .panicked
  else .acquired { lock := { a.lock with writer := true }, write := true }

/-- `unlock_exclusive`: `if let Some(guard) = (*self.write.get()).take()` —
when the slot holds a guard, empty it and drop the guard (clearing the
writer hold); when the slot is empty, do nothing.  Never panics. -/
def StdRawRwLock.unlock_exclusive (a : StdRawRwLock) : StdRawRwLock :=
  if a.write then
    { lock := { a.lock with writer := false }, write := false }
  else a

/-- Would the blocking shared acquire have had to wait? -/
def StdRawRwLock.sharedWouldBlock (a : StdRawRwLock) : Bool :=
  a.lock.writer

/-- Would the blocking exclusive acquire have had to wait? -/
def StdRawRwLock.exclusiveWouldBlock (a : StdRawRwLock) : Bool :=
  a.lock.readers != 0 || a.lock.writer

/-- Destruction events of the adapter, in order.  `impl Drop for
StdRawRwLock` first takes and drops any guard left in the slot, and only
afterwards are the fields (the pinned inner lock among them) destroyed. -/
inductive DropEvent where
  | writeGuard
  | innerLock
deriving DecidableEq, Repr

/-- The order in which `Drop for StdRawRwLock` destroys things. -/
def StdRawRwLock.dropOrder (a : StdRawRwLock) : List DropEvent :=
  (if a.write then [DropEvent.writeGuard] else []) ++ [DropEvent.innerLock]

end LockModel

/-!
## Helper lemmas about the interner model
-/

section InternerLemmas

variable {T : Type} [DecidableEq T]

lemma Interner.get_eq_none {s : Interner T} {t : T} :
    s.get t = none ↔ s.probe t = none := by
  simp [Interner.get]

lemma Interner.get_eq_some {s : Interner T} {t : T} {i : Interned T} :
    s.get t = some i ↔ ∃ e, s.probe t = some e ∧ i = ⟨e.addr, e.val⟩ := by
  cases h : s.probe t <;> simp [Interner.get, h, eq_comm]

lemma Interner.probe_mem {s : Interner T} {t : T} {e : Entry T}
    (h : s.probe t = some e) : e ∈ s.arena :=
  List.mem_of_find?_eq_some h

lemma Interner.probe_spec {s : Interner T} {t : T} {e : Entry T}
    (h : s.probe t = some e) : e.hash = s.hashFn t ∧ e.val = t := by
  have := List.find?_some h
  simpa using this

/-- In the slow path, the write-lock probe sees the same arena as `s`. -/
lemma Interner.probe_bump {s : Interner T} {t : T} {n al : Nat} :
    ({ s with nextAddr := n, allocs := al } : Interner T).probe t = s.probe t := by
  simp [Interner.probe]

/-- `intern` after a fast-path hit returns the found handle and leaves the
state unchanged. -/
lemma Interner.intern_of_get_some {s : Interner T} {t : T} {i : Interned T}
    (h : s.get t = some i) : s.intern t = (i, s) := by
  simp [Interner.intern, Interner.internRacy, h]

/-- `internSlow` on a state whose recheck misses inserts a fresh entry. -/
lemma Interner.internSlow_of_probe_none {s : Interner T} {t : T}
    (h : s.probe t = none) :
    s.internSlow t =
      (⟨s.nextAddr, t⟩,
        { s with
          arena := s.arena ++ [⟨s.nextAddr, t, s.hashFn t⟩],
          nextAddr := s.nextAddr + 1,
          allocs := s.allocs + 1 }) := by
  simp [Interner.internSlow, Interner.probe_bump, h]

/-- `internSlow` on a state whose recheck hits returns the existing handle,
drops the freshly created box, and leaves the arena unchanged. -/
lemma Interner.internSlow_of_probe_some {s : Interner T} {t : T} {e : Entry T}
    (h : s.probe t = some e) :
    s.internSlow t =
      (⟨e.addr, e.val⟩,
        { s with
          nextAddr := s.nextAddr + 1,
          allocs := s.allocs + 1,
          frees := s.frees + 1 }) := by
  simp [Interner.internSlow, Interner.probe_bump, h]

/-- `intern` after a fast-path miss (single-threaded, so the recheck misses
too) inserts a fresh entry under the map hash and returns its address. -/
lemma Interner.intern_of_get_none {s : Interner T} {t : T}
    (h : s.get t = none) :
    s.intern t =
      (⟨s.nextAddr, t⟩,
        { s with
          arena := s.arena ++ [⟨s.nextAddr, t, s.hashFn t⟩],
          nextAddr := s.nextAddr + 1,
          allocs := s.allocs + 1 }) := by
  have hp : s.probe t = none := Interner.get_eq_none.mp h
  simp [Interner.intern, Interner.internRacy, h,
    Interner.internSlow_of_probe_none hp]

/-- After `intern`, `get` of the same value returns exactly the handle that
`intern` returned. -/
lemma Interner.get_intern (s : Interner T) (t : T) :
    ((s.intern t).2).get t = some (s.intern t).1 := by
  cases hg : s.get t with
  | some i =>
    rw [Interner.intern_of_get_some hg]
    exact hg
  | none =>
    have hp : s.probe t = none := Interner.get_eq_none.mp hg
    rw [Interner.intern_of_get_none hg]
    simp only [Interner.probe] at hp
    simp [Interner.get, Interner.probe, List.find?_append, hp]

/-- `intern` of one value does not disturb what `get` returns for a value
already present. -/
lemma Interner.get_intern_stable {s : Interner T} {t : T} {i : Interned T}
    (w : T) (h : s.get t = some i) : ((s.intern w).2).get t = some i := by
  cases hg : s.get w with
  | some j => rw [Interner.intern_of_get_some hg]; exact h
  | none =>
    rw [Interner.intern_of_get_none hg]
    obtain ⟨e, he, hi⟩ := Interner.get_eq_some.mp h
    simp only [Interner.probe] at he
    simp [Interner.get, Interner.probe, List.find?_append, he, hi]

/-- `get` results survive any further sequence of interns unchanged. -/
lemma Interner.get_runInterns_stable {s : Interner T} {t : T} {i : Interned T}
    (ws : List T) (h : s.get t = some i) :
    ((s.runInterns ws)).get t = some i := by
  induction ws generalizing s with
  | nil => exact h
  | cons w ws ih =>
    exact ih (Interner.get_intern_stable w h)

/-- Entries present before an `intern` are still present afterwards. -/
lemma Interner.mem_arena_intern {s : Interner T} {e : Entry T} (t : T)
    (h : e ∈ s.arena) : e ∈ (s.intern t).2.arena := by
  cases hg : s.get t with
  | some j => rw [Interner.intern_of_get_some hg]; exact h
  | none =>
    have hp : s.probe t = none := Interner.get_eq_none.mp hg
    simp only [Interner.intern, Interner.internRacy, hg,
      Interner.internSlow_of_probe_none hp]
    exact List.mem_append_left _ h

/-- Every entry after an `intern` was already there or holds the interned
value. -/
lemma Interner.arena_intern_sub {s : Interner T} {e : Entry T} {t : T}
    (h : e ∈ (s.intern t).2.arena) : e ∈ s.arena ∨ e.val = t := by
  cases hg : s.get t with
  | some j =>
    rw [Interner.intern_of_get_some hg] at h
    exact Or.inl h
  | none =>
    rw [Interner.intern_of_get_none hg] at h
    rcases List.mem_append.mp h with h' | h'
    · exact Or.inl h'
    · simp at h'
      subst h'
      exact Or.inr rfl

/-- Every entry after a sequence of interns was already there or holds one
of the interned values. -/
lemma Interner.arena_runInterns_sub {s : Interner T} {e : Entry T}
    {ws : List T} (h : e ∈ (s.runInterns ws).arena) :
    e ∈ s.arena ∨ e.val ∈ ws := by
  induction ws generalizing s with
  | nil => exact Or.inl h
  | cons w ws ih =>
    rcases ih h with h' | h'
    · rcases Interner.arena_intern_sub h' with h'' | h''
      · exact Or.inl h''
      · exact Or.inr (by simp [h''])
    · exact Or.inr (by simp [h'])

end InternerLemmas

/-!
## Invariant lemmas: address soundness and deduplication
-/

section InvariantLemmas

variable {T : Type} [DecidableEq T]

lemma addrsDistinct_iff {l : List (Entry T)} :
    addrsDistinct l = true ↔ l.Pairwise (fun a b => a.addr ≠ b.addr) := by
  induction l with
  | nil => simp [addrsDistinct]
  | cons a l ih =>
    simp only [addrsDistinct, Bool.and_eq_true, ih, List.pairwise_cons,
      List.all_eq_true, Bool.not_eq_true', beq_eq_false_iff_ne, ne_eq]
    constructor
    · rintro ⟨h1, h2⟩
      exact ⟨fun b hb hab => (h1 b hb) hab.symm, h2⟩
    · rintro ⟨h1, h2⟩
      exact ⟨fun b hb hab => (h1 b hb) hab.symm, h2⟩

lemma valsDistinct_iff {l : List (Entry T)} :
    valsDistinct l = true ↔ l.Pairwise (fun a b => a.val ≠ b.val) := by
  induction l with
  | nil => simp [valsDistinct]
  | cons a l ih =>
    simp only [valsDistinct, Bool.and_eq_true, ih, List.pairwise_cons,
      List.all_eq_true, Bool.not_eq_true', beq_eq_false_iff_ne, ne_eq]
    constructor
    · rintro ⟨h1, h2⟩
      exact ⟨fun b hb hab => (h1 b hb) hab.symm, h2⟩
    · rintro ⟨h1, h2⟩
      exact ⟨fun b hb hab => (h1 b hb) hab.symm, h2⟩

lemma addrsDistinct_append_singleton {l : List (Entry T)} {x : Entry T} :
    addrsDistinct (l ++ [x]) = true ↔
      addrsDistinct l = true ∧ ∀ e ∈ l, e.addr ≠ x.addr := by
  simp [addrsDistinct_iff, List.pairwise_append]

lemma valsDistinct_append_singleton {l : List (Entry T)} {x : Entry T} :
    valsDistinct (l ++ [x]) = true ↔
      valsDistinct l = true ∧ ∀ e ∈ l, e.val ≠ x.val := by
  simp [valsDistinct_iff, List.pairwise_append]

/-- Distinct addresses identify entries. -/
lemma addrsDistinct_inj {l : List (Entry T)} (h : addrsDistinct l = true)
    {e₁ e₂ : Entry T} (h1 : e₁ ∈ l) (h2 : e₂ ∈ l)
    (ha : e₁.addr = e₂.addr) : e₁ = e₂ := by
  induction l with
  | nil => cases h1
  | cons a l ih =>
    simp only [addrsDistinct, Bool.and_eq_true, List.all_eq_true] at h
    obtain ⟨hall, hrest⟩ := h
    rcases List.mem_cons.mp h1 with rfl | h1' <;>
      rcases List.mem_cons.mp h2 with rfl | h2'
    · rfl
    · have := hall e₂ h2'
      simp at this
      exact absurd ha.symm this
    · have := hall e₁ h1'
      simp at this
      exact absurd ha this
    · exact ih hrest h1' h2'

lemma Interner.addrOk_bound {s : Interner T} (h : s.addrOk = true) :
    ∀ e ∈ s.arena, e.addr < s.nextAddr := by
  simp only [Interner.addrOk, Bool.and_eq_true, List.all_eq_true] at h
  intro e he
  simpa using h.1 e he

lemma Interner.addrOk_distinct {s : Interner T} (h : s.addrOk = true) :
    addrsDistinct s.arena = true := by
  simp only [Interner.addrOk, Bool.and_eq_true] at h
  exact h.2

/-- `intern` preserves address soundness. -/
lemma Interner.addrOk_intern {s : Interner T} (t : T)
    (h : s.addrOk = true) : (s.intern t).2.addrOk = true := by
  cases hg : s.get t with
  | some j => rw [Interner.intern_of_get_some hg]; exact h
  | none =>
    rw [Interner.intern_of_get_none hg]
    have hb := Interner.addrOk_bound h
    have hd := Interner.addrOk_distinct h
    simp only [Interner.addrOk, Bool.and_eq_true, List.all_eq_true,
      List.all_append, addrsDistinct_append_singleton]
    refine ⟨⟨?_, ?_⟩, hd, ?_⟩
    · intro e he
      have := hb e he
      simp only [decide_eq_true_eq]
      omega
    · simp
    · intro e he
      have := hb e he
      omega

/-- `intern` preserves the deduplication invariant together with hash
canonicity. -/
lemma Interner.dedup_intern {s : Interner T} (t : T)
    (hd : s.dedup = true) (hc : s.hashCanonical = true) :
    (s.intern t).2.dedup = true ∧ (s.intern t).2.hashCanonical = true := by
  cases hg : s.get t with
  | some j => rw [Interner.intern_of_get_some hg]; exact ⟨hd, hc⟩
  | none =>
    have hp : s.probe t = none := Interner.get_eq_none.mp hg
    rw [Interner.intern_of_get_none hg]
    simp only [Interner.probe, List.find?_eq_none, Bool.and_eq_true,
      beq_iff_eq, not_and] at hp
    simp only [Interner.hashCanonical, List.all_eq_true] at hc
    constructor
    · simp only [Interner.dedup, valsDistinct_append_singleton]
      refine ⟨hd, ?_⟩
      intro e he hv
      have hce : e.hash = s.hashFn e.val := by simpa using hc e he
      exact hp e he (by rw [hce, hv]) hv
    · simp only [Interner.hashCanonical, List.all_eq_true, List.mem_append]
      rintro e (he | he)
      · exact hc e he
      · simp at he
        subst he
        simp

/-- `intern_raw` preserves deduplication and hash canonicity provided the
caller's hash and predicate are coherent with `T`'s equality: the probe hash
is the map hash of the committed value, and the predicate matches exactly
the values equal to the committed value. -/
lemma Interner.dedup_intern_raw {Q : Type} {s : Interner T} (it : Q)
    {h : Nat} (m : Q → T → Bool) (dh : T → Nat) (c : Q → T)
    (hd : s.dedup = true) (hc : s.hashCanonical = true)
    (hh : h = s.hashFn (c it)) (hm : ∀ u, m it u = (u == c it)) :
    (s.intern_raw it h m dh c).2.1.dedup = true ∧
      (s.intern_raw it h m dh c).2.1.hashCanonical = true := by
  simp only [Interner.intern_raw, Interner.internRawRacy]
  cases hg : s.get_raw h (fun u => m it u) with
  | some j => exact ⟨hd, hc⟩
  | none =>
    have hp : s.probeRaw h (fun u => m it u) = none := by
      cases hq : s.probeRaw h (fun u => m it u) with
      | none => rfl
      | some e =>
        rw [Interner.get_raw, hq] at hg
        simp at hg
    simp only [Interner.internRawSlow, hp]
    simp only [Interner.probeRaw, List.find?_eq_none, Bool.and_eq_true,
      beq_iff_eq, not_and] at hp
    simp only [Interner.hashCanonical, List.all_eq_true] at hc
    constructor
    · simp only [Interner.dedup, valsDistinct_append_singleton]
      refine ⟨hd, ?_⟩
      intro e he hv
      have hce : e.hash = s.hashFn e.val := by simpa using hc e he
      have : e.hash = h := by rw [hce, hv, hh]
      have hme : m it e.val = true := by rw [hm, hv]; simp
      exact absurd hme (by simpa using hp e he this)
    · simp only [Interner.hashCanonical, List.all_eq_true, List.mem_append]
      rintro e (he | he)
      · exact hc e he
      · simp at he
        subst he
        simp [hh]

end InvariantLemmas

/-!
## Claims about the interning store
-/

/-- **C2** (counterexample): the claim says the conversion of the caller's
value into an owned boxed `T` happens only when the recheck under the
exclusive lock confirms the key is absent.  In the source the conversion
`PinBox::new(t.into())` is performed unconditionally before the `entry`
recheck (the code comments this trade-off explicitly).  Concretely: a racing
intern of `5` whose fast-path probe saw an empty arena but whose recheck
runs against an arena that already contains `5` still performs a heap
allocation (`allocs` goes from 1 to 2), which it then immediately frees
(`frees` goes from 0 to 1); the arena is unchanged and the existing handle
at address 0 is returned. -/
theorem C2_counterexample :
    (Interner.internRacy (Interner.new (fun n : Nat => n))
        (⟨fun n : Nat => n, [⟨0, 5, 5⟩], 1, 1, 0⟩ : Interner Nat) 5).1 = ⟨0, 5⟩ ∧
    (Interner.internRacy (Interner.new (fun n : Nat => n))
        (⟨fun n : Nat => n, [⟨0, 5, 5⟩], 1, 1, 0⟩ : Interner Nat) 5).2.arena = [⟨0, 5, 5⟩] ∧
    (Interner.internRacy (Interner.new (fun n : Nat => n))
        (⟨fun n : Nat => n, [⟨0, 5, 5⟩], 1, 1, 0⟩ : Interner Nat) 5).2.allocs = 2 ∧
    (Interner.internRacy (Interner.new (fun n : Nat => n))
        (⟨fun n : Nat => n, [⟨0, 5, 5⟩], 1, 1, 0⟩ : Interner Nat) 5).2.frees = 1 := by
  decide

/-- **C2** (amended): in `intern`'s slow path, when the recheck under the
exclusive lock finds the key already present, `intern` returns the existing
handle and discards the caller's value — but the conversion into an owned
boxed `T` has already been performed before the recheck, so one transient
allocation is created and immediately freed on a recheck hit; the arena and
the net count of retained allocations (`allocs - frees`) are unchanged, so
exactly one allocation is ever *retained* for any given value. -/
theorem C2_recheck_hit_returns_existing {T : Type} [DecidableEq T]
    (s s' : Interner T) (t : T) (i : Interned T)
    (hfast : s.get t = none) (hre : s'.get t = some i) :
    s.internRacy s' t =
      (i, { s' with
        nextAddr := s'.nextAddr + 1,
        allocs := s'.allocs + 1,
        frees := s'.frees + 1 }) := by
  obtain ⟨e, he, hi⟩ := Interner.get_eq_some.mp hre
  simp [Interner.internRacy, hfast, Interner.internSlow_of_probe_some he, hi]

/-- **C2** (witness for the amended theorem). -/
theorem C2_witness :
    (Interner.new (fun n : Nat => n)).get 5 = none ∧
    (⟨fun n : Nat => n, [⟨0, 5, 5⟩], 1, 1, 0⟩ : Interner Nat).get 5 = some ⟨0, 5⟩ ∧
    Interner.internRacy (Interner.new (fun n : Nat => n))
        (⟨fun n : Nat => n, [⟨0, 5, 5⟩], 1, 1, 0⟩ : Interner Nat) 5 =
      (⟨0, 5⟩, ⟨fun n : Nat => n, [⟨0, 5, 5⟩], 2, 2, 1⟩) := by
  refine ⟨by decide, by decide, ?_⟩
  have := C2_recheck_hit_returns_existing (Interner.new (fun n : Nat => n))
    (⟨fun n : Nat => n, [⟨0, 5, 5⟩], 1, 1, 0⟩ : Interner Nat) 5 ⟨0, 5⟩
    (by decide) (by decide)
  exact this

/-- **C3**: for every value `v`: `get v` returns `none` on a store on which
no value equal to `v` has been interned (first conjunct, for any sequence of
interns from any of the constructors — all four construct the same empty
store); and after `intern v` has returned a handle, `get v` returns exactly
that handle, hence one resolving to the same address (second conjunct, for
every store state).  `get` itself never modifies the store, so interleaved
`get` calls do not affect the first conjunct. -/
theorem C3_get_none_before_some_after {T : Type} [DecidableEq T]
    (f : T → Nat) (ws : List T) (v : T) (hv : v ∉ ws) :
    ((Interner.new f).runInterns ws).get v = none ∧
      ∀ (s : Interner T) (t : T), ((s.intern t).2).get t = some (s.intern t).1 := by
  constructor
  · cases hg : ((Interner.new f).runInterns ws).get v with
    | none => rfl
    | some i =>
      obtain ⟨e, he, -⟩ := Interner.get_eq_some.mp hg
      have hm := Interner.probe_mem he
      have hv' := (Interner.probe_spec he).2
      rcases Interner.arena_runInterns_sub hm with h' | h'
      · simp [Interner.new] at h'
      · rw [hv'] at h'
        exact absurd h' hv
  · exact fun s t => Interner.get_intern s t

/-- **C3** (witness). -/
theorem C3_witness :
    (5 : Nat) ∉ [1, 2] ∧
      ((Interner.new (fun n : Nat => n)).runInterns [1, 2]).get 5 = none :=
  ⟨by decide, (C3_get_none_before_some_after (fun n : Nat => n) [1, 2] 5 (by decide)).1⟩

/-- **C4**: on a store whose addresses are allocator-sound, interning the
same value twice sequentially returns the very same handle (in particular
the same address), and interning two distinct values returns handles with
distinct addresses. -/
theorem C4_same_addr_twice_distinct_addrs {T : Type} [DecidableEq T]
    (s : Interner T) (v w : T) (ha : s.addrOk = true) (hvw : v ≠ w) :
    (((s.intern v).2).intern v).1 = (s.intern v).1 ∧
      (((s.intern v).2).intern w).1.addr ≠ (s.intern v).1.addr := by
  have hget₁ : ((s.intern v).2).get v = some (s.intern v).1 :=
    Interner.get_intern s v
  constructor
  · rw [Interner.intern_of_get_some hget₁]
  · intro haddr
    obtain ⟨e₁, he₁, hi₁⟩ := Interner.get_eq_some.mp hget₁
    have he₁v : e₁.val = v := (Interner.probe_spec he₁).2
    have he₁m : e₁ ∈ ((s.intern v).2).arena := Interner.probe_mem he₁
    have hget₂ : (((s.intern v).2).intern w).2.get w =
        some (((s.intern v).2).intern w).1 :=
      Interner.get_intern ((s.intern v).2) w
    obtain ⟨e₂, he₂, hi₂⟩ := Interner.get_eq_some.mp hget₂
    have he₂w : e₂.val = w := (Interner.probe_spec he₂).2
    have he₂m : e₂ ∈ ((((s.intern v).2).intern w).2).arena :=
      Interner.probe_mem he₂
    have he₁m' : e₁ ∈ ((((s.intern v).2).intern w).2).arena :=
      Interner.mem_arena_intern w he₁m
    have hok : ((((s.intern v).2).intern w).2).addrOk = true :=
      Interner.addrOk_intern w (Interner.addrOk_intern v ha)
    have hdist := Interner.addrOk_distinct hok
    have : e₂ = e₁ := by
      refine addrsDistinct_inj hdist he₂m he₁m' ?_
      rw [hi₁] at haddr
      rw [hi₂] at haddr
      exact haddr
    rw [← this, he₂w] at he₁v
    exact hvw he₁v.symm

/-- **C4** (witness). -/
theorem C4_witness :
    (Interner.new (fun n : Nat => n)).addrOk = true ∧ (1 : Nat) ≠ 2 ∧
      ((((Interner.new (fun n : Nat => n)).intern 1).2).intern 1).1 =
          ((Interner.new (fun n : Nat => n)).intern 1).1 ∧
        ((((Interner.new (fun n : Nat => n)).intern 1).2).intern 2).1.addr ≠
          ((Interner.new (fun n : Nat => n)).intern 1).1.addr := by
  refine ⟨by decide, by decide, ?_, ?_⟩
  · exact (C4_same_addr_twice_distinct_addrs (Interner.new (fun n : Nat => n))
      1 2 (by decide) (by decide)).1
  · exact (C4_same_addr_twice_distinct_addrs (Interner.new (fun n : Nat => n))
      1 2 (by decide) (by decide)).2

/-- **C5** (counterexample): the claim says every operation, `intern_raw`
included, preserves the deduplication invariant.  `intern_raw` with a match
predicate that is incoherent with `T`'s equality (here: constantly `false`)
inserts a second entry for a value that is already interned, violating the
invariant. -/
theorem C5_counterexample :
    (Interner.intern_raw (((Interner.new (fun n : Nat => n)).intern 5).2)
        () 5 (fun _ _ => false) (fun t => t) (fun _ => 5)).2.1.dedup = false := by
  decide

/-- **C5** (amended): all four constructors establish the deduplication
invariant (together with hash canonicity), `get`/`get_raw` never modify the
store, and `intern` preserves it; `intern_raw` preserves it only under
coherence of the caller-supplied probe with `T`'s equality — the probe hash
must be the map hash of the committed value, and the match predicate must
hold exactly for values equal to the committed value.  With an incoherent
predicate `intern_raw` can insert a duplicate (see the counterexample). -/
theorem C5_dedup_invariant {T : Type} [DecidableEq T] {Q : Type}
    (f : T → Nat) (capacity : Nat) (s : Interner T) (t : T)
    (it : Q) (h : Nat) (m : Q → T → Bool) (dh : T → Nat) (c : Q → T) :
    ((Interner.new f).dedup = true ∧ (Interner.new f).hashCanonical = true) ∧
    ((Interner.with_capacity f capacity).dedup = true ∧
      (Interner.with_capacity f capacity).hashCanonical = true) ∧
    ((Interner.with_hasher f).dedup = true ∧
      (Interner.with_hasher f).hashCanonical = true) ∧
    ((Interner.with_capacity_and_hasher capacity f).dedup = true ∧
      (Interner.with_capacity_and_hasher capacity f).hashCanonical = true) ∧
    (s.dedup = true → s.hashCanonical = true →
      (s.intern t).2.dedup = true ∧ (s.intern t).2.hashCanonical = true) ∧
    (s.dedup = true → s.hashCanonical = true → h = s.hashFn (c it) →
      (∀ u, m it u = (u == c it)) →
      (s.intern_raw it h m dh c).2.1.dedup = true ∧
        (s.intern_raw it h m dh c).2.1.hashCanonical = true) := by
  refine ⟨?_, ?_, ?_, ?_, ?_, ?_⟩
  · exact ⟨rfl, rfl⟩
  · exact ⟨rfl, rfl⟩
  · exact ⟨rfl, rfl⟩
  · exact ⟨rfl, rfl⟩
  · exact fun hd hc => Interner.dedup_intern t hd hc
  · exact fun hd hc hh hm => Interner.dedup_intern_raw it m dh c hd hc hh hm

/-- **C5** (witness for the amended theorem). -/
theorem C5_witness :
    (((Interner.new (fun n : Nat => n)).intern 3).2.dedup = true ∧
        ((Interner.new (fun n : Nat => n)).intern 3).2.hashCanonical = true) ∧
      ((Interner.intern_raw (Interner.new (fun n : Nat => n))
            () 7 (fun _ u => u == 7) (fun u => u) (fun _ => 7)).2.1.dedup = true ∧
        (Interner.intern_raw (Interner.new (fun n : Nat => n))
            () 7 (fun _ u => u == 7) (fun u => u) (fun _ => 7)).2.1.hashCanonical = true) := by
  constructor
  · exact (C5_dedup_invariant (fun n : Nat => n) 0 (Interner.new (fun n : Nat => n)) 3
      () 7 (fun _ u => u == 7) (fun u => u) (fun _ => 7)).2.2.2.2.1
      (by decide) (by decide)
  · exact (C5_dedup_invariant (fun n : Nat => n) 0 (Interner.new (fun n : Nat => n)) 3
      () 7 (fun _ u => u == 7) (fun u => u) (fun _ => 7)).2.2.2.2.2
      (by decide) (by decide) (by decide) (fun u => rfl)

/-- **C6**: in `intern_raw` (with the probe/write-lock race explicit: `s` is
the state seen by the shared-lock probe, `s'` the state seen by the
exclusive-lock recheck), the commit closure runs exactly when both the probe
and the recheck miss; on a probe hit the caller's candidate is discarded and
the probing state is returned untouched; on a recheck hit the existing
entry's handle is returned and the candidate is likewise discarded without
being committed. -/
theorem C6_commit_iff_double_miss {T : Type} [DecidableEq T] {Q : Type}
    (s s' : Interner T) (it : Q) (h : Nat) (m : Q → T → Bool)
    (dh : T → Nat) (c : Q → T) :
    ((s.internRawRacy s' it h m dh c).2.2 = true ↔
        s.get_raw h (fun u => m it u) = none ∧
          s'.probeRaw h (fun u => m it u) = none) ∧
    (∀ i, s.get_raw h (fun u => m it u) = some i →
        s.internRawRacy s' it h m dh c = (i, s, false)) ∧
    (∀ e, s.get_raw h (fun u => m it u) = none →
        s'.probeRaw h (fun u => m it u) = some e →
        s.internRawRacy s' it h m dh c = (⟨e.addr, e.val⟩, s', false)) := by
  refine ⟨?_, ?_, ?_⟩
  · cases hg : s.get_raw h (fun u => m it u) with
    | some i => simp [Interner.internRawRacy, hg]
    | none =>
      cases hq : s'.probeRaw h (fun u => m it u) with
      | some e => simp [Interner.internRawRacy, Interner.internRawSlow, hg, hq]
      | none => simp [Interner.internRawRacy, Interner.internRawSlow, hg, hq]
  · intro i hg
    simp [Interner.internRawRacy, hg]
  · intro e hg hq
    simp [Interner.internRawRacy, Interner.internRawSlow, hg, hq]

/-- **C6** (witness). -/
theorem C6_witness :
    ((Interner.internRawRacy (Interner.new (fun n : Nat => n))
        (⟨fun n : Nat => n, [⟨0, 5, 5⟩], 1, 1, 0⟩ : Interner Nat)
        () 5 (fun _ u => u == 5) (fun u => u) (fun _ => 5)).2.2 = true ↔
      (Interner.new (fun n : Nat => n)).get_raw 5 (fun u => (fun _ u => u == 5) () u) = none ∧
        (⟨fun n : Nat => n, [⟨0, 5, 5⟩], 1, 1, 0⟩ : Interner Nat).probeRaw 5
          (fun u => (fun _ u => u == 5) () u) = none) ∧
    Interner.internRawRacy (Interner.new (fun n : Nat => n))
        (⟨fun n : Nat => n, [⟨0, 5, 5⟩], 1, 1, 0⟩ : Interner Nat)
        () 5 (fun _ u => u == 5) (fun u => u) (fun _ => 5) =
      (⟨0, 5⟩, (⟨fun n : Nat => n, [⟨0, 5, 5⟩], 1, 1, 0⟩ : Interner Nat), false) := by
  constructor
  · exact (C6_commit_iff_double_miss (Interner.new (fun n : Nat => n))
      (⟨fun n : Nat => n, [⟨0, 5, 5⟩], 1, 1, 0⟩ : Interner Nat)
      () 5 (fun _ u => u == 5) (fun u => u) (fun _ => 5)).1
  · exact (C6_commit_iff_double_miss (Interner.new (fun n : Nat => n))
      (⟨fun n : Nat => n, [⟨0, 5, 5⟩], 1, 1, 0⟩ : Interner Nat)
      () 5 (fun _ u => u == 5) (fun u => u) (fun _ => 5)).2.2
      ⟨0, 5, 5⟩ (by decide) (by decide)

/-- **C7**: growth stability.  A handle obtained from `intern v` on any
store remains address-identical (in fact handle-identical) after any further
sequence of interns: later insertions — however much they grow or rehash the
underlying table — never invalidate or change a previously returned
address, because each payload lives in its own pinned allocation whose
address is fixed at creation. -/
theorem C7_growth_stability {T : Type} [DecidableEq T]
    (s : Interner T) (v : T) (ws : List T) :
    (((s.intern v).2).runInterns ws).get v = some (s.intern v).1 :=
  Interner.get_runInterns_stable ws (Interner.get_intern s v)

/-!
## Claims about the lock adapter
-/

/-- **C1** (counterexample): the claim says that when the underlying
primitive reports poisoning, every adapter operation absorbs it and
completes normally.  In the source all four acquire operations call
`.expect("interner lock should not be poisoned")` on the `std` result, so on
a poisoned (otherwise free) lock each of them panics instead of completing. -/
theorem C1_counterexample :
    StdRawRwLock.lock_shared ⟨⟨0, false, true⟩, false⟩ = .panicked ∧
    StdRawRwLock.try_lock_shared ⟨⟨0, false, true⟩, false⟩ = .panicked ∧
    StdRawRwLock.lock_exclusive ⟨⟨0, false, true⟩, false⟩ = .panicked ∧
    StdRawRwLock.try_lock_exclusive ⟨⟨0, false, true⟩, false⟩ = .panicked := by
  decide

/-- **C1** (amended): poisoning is absorbed only by the release operations,
never by the acquires.  Whenever the underlying primitive reports poisoning,
each acquire operation (blocking and try alike) panics as soon as it is not
blocked/unavailable first; the release operations never fail on a poisoned
lock: `unlock_shared` returns normally leaving the state unchanged (its
re-derive branch is skipped), and `unlock_exclusive` returns normally
and still releases any guard stored in the slot. -/
theorem C1_poison_panics_on_acquire_absorbed_on_release (a : StdRawRwLock) :
    (a.lock.poisoned = true → a.lock.writer = false →
      a.lock_shared = .panicked ∧ a.try_lock_shared = .panicked) ∧
    (a.lock.poisoned = true → a.lock.readers = 0 → a.lock.writer = false →
      a.lock_exclusive = .panicked ∧ a.try_lock_exclusive = .panicked) ∧
    (a.lock.poisoned = true → a.unlock_shared = a) ∧
    (a.lock.poisoned = true → a.write = true →
      a.unlock_exclusive =
        { lock := { a.lock with writer := false }, write := false }) ∧
    (a.lock.poisoned = true → a.write = false → a.unlock_exclusive = a) := by
  refine ⟨?_, ?_, ?_, ?_, ?_⟩
  · intro hp hw
    constructor <;>
      simp [StdRawRwLock.lock_shared, StdRawRwLock.try_lock_shared, hp, hw]
  · intro hp hr hw
    constructor <;>
      simp [StdRawRwLock.lock_exclusive, StdRawRwLock.try_lock_exclusive, hp, hr, hw]
  · intro hp
    simp [StdRawRwLock.unlock_shared, hp]
  · intro hp hw
    simp [StdRawRwLock.unlock_exclusive, hw]
  · intro hp hw
    simp [StdRawRwLock.unlock_exclusive, hw]

/-- **C1** (witness for the amended theorem). -/
theorem C1_witness :
    StdRawRwLock.lock_shared ⟨⟨0, false, true⟩, true⟩ = .panicked ∧
    StdRawRwLock.unlock_shared ⟨⟨0, false, true⟩, true⟩ = ⟨⟨0, false, true⟩, true⟩ ∧
    StdRawRwLock.unlock_exclusive ⟨⟨0, true, true⟩, true⟩ = ⟨⟨0, false, true⟩, false⟩ := by
  refine ⟨?_, ?_, ?_⟩
  · exact ((C1_poison_panics_on_acquire_absorbed_on_release
      ⟨⟨0, false, true⟩, true⟩).1 (by decide) (by decide)).1
  · exact (C1_poison_panics_on_acquire_absorbed_on_release
      ⟨⟨0, false, true⟩, true⟩).2.2.1 (by decide)
  · exact (C1_poison_panics_on_acquire_absorbed_on_release
      ⟨⟨0, true, true⟩, true⟩).2.2.2.1 (by decide) (by decide)

/-- **C8**: the try-acquire operations never block; each returns `false`
(leaving the adapter untouched) exactly in the lock states in which the
corresponding blocking acquire would have had to wait — shared: a writer
hold is active; exclusive: any reader or writer hold is active — and when
they return `true` the hold is actually taken (reader count incremented,
resp. writer flag set and the guard stored in the slot) and persists until
the matching release undoes exactly it. -/
theorem C8_try_never_blocks_false_iff_wait (a : StdRawRwLock) :
    (a.try_lock_shared ≠ .blocked ∧ a.try_lock_exclusive ≠ .blocked) ∧
    (a.try_lock_shared = .unavailable a ↔ a.sharedWouldBlock = true) ∧
    (a.try_lock_exclusive = .unavailable a ↔ a.exclusiveWouldBlock = true) ∧
    (a.sharedWouldBlock = true ↔ a.lock_shared = .blocked) ∧
    (a.exclusiveWouldBlock = true ↔ a.lock_exclusive = .blocked) ∧
    (∀ a', a.try_lock_shared = .acquired a' →
      a'.lock.readers = a.lock.readers + 1 ∧ a'.unlock_shared = a) ∧
    (∀ a', a.try_lock_exclusive = .acquired a' →
      a'.lock.writer = true ∧ a'.write = true ∧
        a'.unlock_exclusive = { lock := a.lock, write := false }) := by
  obtain ⟨⟨r, w, p⟩, sl⟩ := a
  cases w <;> cases p <;>
    rcases Nat.eq_zero_or_pos r with rfl | hr <;>
    simp_all [StdRawRwLock.try_lock_shared, StdRawRwLock.try_lock_exclusive,
      StdRawRwLock.lock_shared, StdRawRwLock.lock_exclusive,
      StdRawRwLock.unlock_shared, StdRawRwLock.unlock_exclusive,
      StdRawRwLock.sharedWouldBlock, StdRawRwLock.exclusiveWouldBlock,
      Nat.pos_iff_ne_zero]

/-- **C8** (witness). -/
theorem C8_witness :
    StdRawRwLock.INIT.try_lock_shared = .acquired ⟨⟨1, false, false⟩, false⟩ ∧
      (⟨⟨1, false, false⟩, false⟩ : StdRawRwLock).lock.readers =
          StdRawRwLock.INIT.lock.readers + 1 ∧
        (⟨⟨1, false, false⟩, false⟩ : StdRawRwLock).unlock_shared =
          StdRawRwLock.INIT := by
  refine ⟨by decide, ?_⟩
  exact (C8_try_never_blocks_false_iff_wait StdRawRwLock.INIT).2.2.2.2.2.1
    ⟨⟨1, false, false⟩, false⟩ (by decide)

/-- **C9**: under the precondition that a shared hold is in effect (at least
one reader, hence no writer, and — as the adapter's acquire discipline
guarantees, since acquires on a poisoned lock panic instead of handing out
holds — no poison), `unlock_shared` takes the re-derive branch
(`try_read()` succeeds) and performs the real unlock: the reader count
decreases by exactly one. -/
theorem C9_unlock_shared_decrements (a : StdRawRwLock)
    (hr : 1 ≤ a.lock.readers) (hw : a.lock.writer = false)
    (hp : a.lock.poisoned = false) :
    (!a.lock.writer && !a.lock.poisoned) = true ∧
    a.unlock_shared =
      { a with lock := { a.lock with readers := a.lock.readers - 1 } } ∧
    a.unlock_shared.lock.readers + 1 = a.lock.readers := by
  refine ⟨by simp [hw, hp], by simp [StdRawRwLock.unlock_shared, hw, hp], ?_⟩
  simp [StdRawRwLock.unlock_shared, hw, hp]
  omega

/-- **C9** (witness). -/
theorem C9_witness :
    1 ≤ (⟨⟨2, false, false⟩, false⟩ : StdRawRwLock).lock.readers ∧
      (⟨⟨2, false, false⟩, false⟩ : StdRawRwLock).unlock_shared =
          ⟨⟨1, false, false⟩, false⟩ ∧
        (⟨⟨2, false, false⟩, false⟩ : StdRawRwLock).unlock_shared.lock.readers + 1 =
          (⟨⟨2, false, false⟩, false⟩ : StdRawRwLock).lock.readers := by
  refine ⟨by decide, ?_, ?_⟩
  · exact (C9_unlock_shared_decrements ⟨⟨2, false, false⟩, false⟩
      (by decide) (by decide) (by decide)).2.1
  · exact (C9_unlock_shared_decrements ⟨⟨2, false, false⟩, false⟩
      (by decide) (by decide) (by decide)).2.2

/-- **C10**: `unlock_exclusive` is total on the adapter state and never
raises an error: with an empty slot it is the identity; with a stored guard
it empties the slot and releases exactly that guard (clearing the writer
hold and nothing else).  On destruction of the adapter, a guard still in the
slot is dropped strictly before the underlying lock itself. -/
theorem C10_unlock_exclusive_total (a : StdRawRwLock) :
    (a.write = false → a.unlock_exclusive = a) ∧
    (a.write = true →
      a.unlock_exclusive =
        { lock := { a.lock with writer := false }, write := false }) ∧
    (a.write = true →
      a.dropOrder = [DropEvent.writeGuard, DropEvent.innerLock]) ∧
    (a.write = false → a.dropOrder = [DropEvent.innerLock]) := by
  refine ⟨?_, ?_, ?_, ?_⟩ <;> intro h <;>
    simp [StdRawRwLock.unlock_exclusive, StdRawRwLock.dropOrder, h]

/-- **C10** (witness). -/
theorem C10_witness :
    StdRawRwLock.unlock_exclusive ⟨⟨0, true, false⟩, true⟩ = ⟨⟨0, false, false⟩, false⟩ ∧
      StdRawRwLock.unlock_exclusive ⟨⟨0, false, false⟩, false⟩ = ⟨⟨0, false, false⟩, false⟩ ∧
        StdRawRwLock.dropOrder ⟨⟨0, true, false⟩, true⟩ =
          [DropEvent.writeGuard, DropEvent.innerLock] := by
  refine ⟨?_, ?_, ?_⟩
  · exact (C10_unlock_exclusive_total ⟨⟨0, true, false⟩, true⟩).2.1 (by decide)
  · exact (C10_unlock_exclusive_total ⟨⟨0, false, false⟩, false⟩).1 (by decide)
  · exact (C10_unlock_exclusive_total ⟨⟨0, true, false⟩, true⟩).2.2.1 (by decide)
